import Mathlib

/-
Verification of the bf-rs Brainfuck compiler pipeline.

The parser (`src/src/ast/parser.rs`) is embedded directly from the source.
The `common`, `rle`, `peephole` and `jit::compiler` modules are not part of
the source tree; where a claim depends on them they are modelled from the
specification, as marked in the doc comments below.

The mutually recursive parser functions are defined with an explicit fuel
parameter (structural recursion on the fuel), and `parse_instruction` /
`parse_instructions` instantiate the fuel with a provably sufficient bound.
The lemmas `parse_instruction_cons_*` and `parse_instructions_unfold` recover
exactly the recursion equations of the Rust source, so the fuel is invisible
to all further reasoning.
-/

set_option maxHeartbeats 1000000

/-- Modelled from the spec: `common::Error` (the `common` module is not in the
source tree).  The spec names exactly four error kinds: `UnmatchedBegin`,
`UnmatchedEnd` (structural parse errors) and `PointerUnderflow`,
`PointerOverflow` (checked-mode execution faults). -/
inductive Error where
  | UnmatchedBegin
  | UnmatchedEnd
  | PointerUnderflow
  | PointerOverflow
deriving DecidableEq

/-- `common::BfResult` — the result type used by the parser and interpreters. -/
abbrev BfResult (α : Type) := Except Error α

/-- `common::Command` — one atomic command, as used by `parser.rs`
(`Left`, `Right`, `Up`, `Down`, `In`, `Out`). -/
inductive Command where
  | Left
  | Right
  | Up
  | Down
  | In
  | Out
deriving DecidableEq

/-- `Instruction` — a syntax-tree node: `Op(Command)` or `Loop(Program)`. -/
inductive Instruction where
  | Op (cmd : Command)
  | Loop (body : List Instruction)

/-- `Program` — an ordered finite sequence of instructions
(`Box<[Instruction]>` in the source). -/
abbrev Program := List Instruction

/-- The six operation bytes of `parse_instruction` (lines 34-39 of
`parser.rs`): `<` `>` `+` `-` `,` `.` mapped to their commands. -/
def cmdOfByte (c : UInt8) : Option Command :=
  if c = 60 then some .Left
  else if c = 62 then some .Right
  else if c = 43 then some .Up
  else if c = 45 then some .Down
  else if c = 44 then some .In
  else if c = 46 then some .Out
  else none

/-- The eight command bytes `< > + - , . [ ]`; every other byte is a comment. -/
def isCmd (c : UInt8) : Prop :=
  c = 60 ∨ c = 62 ∨ c = 43 ∨ c = 45 ∨ c = 44 ∨ c = 46 ∨ c = 91 ∨ c = 93

instance (c : UInt8) : Decidable (isCmd c) := by
  unfold isCmd; infer_instance

/-- The inner loop of `parse_instruction` (lines 46-55 of `parser.rs`): after
the body of a `[`...`]` pair has been parsed, skip bytes until the matching
`]` is found; running off the end of the input is `UnmatchedBegin`. -/
def parse_loop_close (program : Program) :
    List UInt8 → BfResult (Option Instruction × List UInt8)
  | [] => .error .UnmatchedBegin
  | c :: rest =>
      if c = 93 then .ok (some (.Loop program), rest)
      else parse_loop_close program rest

mutual

/-- `parse_instruction` (lines 25-66 of `parser.rs`), with fuel.  Comment
bytes are skipped by the tail call in the final branch; `]` is an
`UnmatchedEnd`; `[` parses a body with `parse_instructionsF` and then scans
for the matching `]` with `parse_loop_close`.  The fuel-exhaustion value
(first branch for `0`) is never reached at the fuel used by
`parse_instruction` below. -/
def parse_instructionF : Nat → List UInt8 → BfResult (Option Instruction × List UInt8)
  | _, [] => .ok (none, [])
  | 0, _ :: _ => .error .UnmatchedBegin
  | fuel + 1, c :: input =>
      if c = 60 then .ok (some (.Op .Left), input)
      else if c = 62 then .ok (some (.Op .Right), input)
      else if c = 43 then .ok (some (.Op .Up), input)
      else if c = 45 then .ok (some (.Op .Down), input)
      else if c = 44 then .ok (some (.Op .In), input)
      else if c = 46 then .ok (some (.Op .Out), input)
      else if c = 93 then .error .UnmatchedEnd
      else if c = 91 then
        match parse_instructionsF fuel input with
        | .error e => .error e
        | .ok (program, next) => parse_loop_close program next
      else parse_instructionF fuel input

/-- `parse_instructions` (lines 68-90 of `parser.rs`), with fuel: accumulate
instructions until `parse_instruction` yields `None` (end of input) or fails;
`UnmatchedBegin` is propagated, any other error stops the loop and leaves the
unconsumed input as the rest. -/
def parse_instructionsF : Nat → List UInt8 → BfResult (Program × List UInt8)
  | 0, _ => .error .UnmatchedBegin
  | fuel + 1, input =>
      match parse_instructionF fuel input with
      | .ok (some instruction, next) =>
          match parse_instructionsF fuel next with
          | .ok (instructions, rest) => .ok (instruction :: instructions, rest)
          | .error e => .error e
      | .ok (none, next) => .ok ([], next)
      | .error .UnmatchedBegin => .error .UnmatchedBegin
      | .error _ => .ok ([], input)

end

/-- `parse_instruction` at its sufficient fuel. -/
def parse_instruction (input : List UInt8) :
    BfResult (Option Instruction × List UInt8) :=
  parse_instructionF (2 * input.length + 1) input

/-- `parse_instructions` at its sufficient fuel. -/
def parse_instructions (input : List UInt8) :
    BfResult (Program × List UInt8) :=
  parse_instructionsF (2 * input.length + 2) input

/-- `parse_program` (lines 10-17 of `parser.rs`): parse a top-level
instruction sequence; leftover input means an unmatched `]`. -/
def parse_program (input : List UInt8) : BfResult Program :=
  match parse_instructions input with
  | .error e => .error e
  | .ok (program, rest) => if rest.isEmpty then .ok program else .error .UnmatchedEnd

-- Sanity checks mirroring the unit tests of `parser.rs`.
example : parse_program [60] = .ok [.Op .Left] := rfl
example : parse_program [62] = .ok [.Op .Right] := rfl
example : parse_program [43] = .ok [.Op .Up] := rfl
example : parse_program [45] = .ok [.Op .Down] := rfl
example : parse_program [44] = .ok [.Op .In] := rfl
example : parse_program [46] = .ok [.Op .Out] := rfl
example : parse_program [] = .ok [] := rfl
example : parse_program [91, 93] = .ok [.Loop []] := rfl
example : parse_program [91, 60, 93] = .ok [.Loop [.Op .Left]] := rfl
example : parse_program [91, 60, 91, 93, 93] = .ok [.Loop [.Op .Left, .Loop []]] := rfl
example : parse_program [104, 105, 32, 60] = .ok [.Op .Left] := rfl
example : parse_program [60, 32, 104, 105] = .ok [.Op .Left] := rfl
example : parse_program [104, 105] = .ok [] := rfl
example : parse_program [91] = .error .UnmatchedBegin := rfl
example : parse_program [91, 60, 91, 46, 93] = .error .UnmatchedBegin := rfl
example : parse_program [93] = .error .UnmatchedEnd := rfl
example : parse_program [46, 91, 46, 93, 46, 93] = .error .UnmatchedEnd := rfl
example :
    parse_program [104, 91, 101, 60, 108, 91, 108, 43, 111, 93, 32, 44, 119, 93]
      = .ok [.Loop [.Op .Left, .Loop [.Op .Up], .Op .In]] := rfl

/-! ### Fuel elimination: the fueled parser satisfies the source's recursion -/

lemma parse_loop_close_ok {p : Program} :
    ∀ {x : List UInt8} {oi r}, parse_loop_close p x = .ok (oi, r) →
      r.length < x.length ∧ oi = some (.Loop p) := by
  intro x
  induction x with
  | nil => intro oi r h; simp [parse_loop_close] at h
  | cons c rest ih =>
    intro oi r h
    simp only [parse_loop_close] at h
    split at h
    · injection h with h1
      injection h1 with h2 h3
      subst h2
      subst h3
      exact ⟨by simp, rfl⟩
    · obtain ⟨h1, h2⟩ := ih h
      exact ⟨Nat.lt_trans h1 (by simp), h2⟩

lemma parse_loop_close_error {p : Program} :
    ∀ {x : List UInt8} {e}, parse_loop_close p x = .error e → e = .UnmatchedBegin := by
  intro x
  induction x with
  | nil => intro e h; simp only [parse_loop_close] at h; exact (Except.error.inj h).symm
  | cons c rest ih =>
    intro e h
    simp only [parse_loop_close] at h
    split at h
    · simp at h
    · exact ih h

lemma parser_error_kinds :
    ∀ f, (∀ x e, parse_instructionF f x = .error e →
            e = .UnmatchedEnd ∨ e = .UnmatchedBegin) ∧
         (∀ x e, parse_instructionsF f x = .error e →
            e = .UnmatchedEnd ∨ e = .UnmatchedBegin) := by
  intro f
  induction f with
  | zero =>
    constructor
    · intro x e h
      match x with
      | [] => simp [parse_instructionF] at h
      | c :: t =>
        simp only [parse_instructionF] at h
        exact Or.inr (Except.error.inj h).symm
    · intro x e h
      simp only [parse_instructionsF] at h
      exact Or.inr (Except.error.inj h).symm
  | succ f ih =>
    constructor
    · intro x e h
      match x with
      | [] => simp [parse_instructionF] at h
      | c :: input =>
        simp only [parse_instructionF] at h
        split at h
        · simp at h
        · split at h
          · simp at h
          · split at h
            · simp at h
            · split at h
              · simp at h
              · split at h
                · simp at h
                · split at h
                  · simp at h
                  · split at h
                    · exact Or.inl (Except.error.inj h).symm
                    · split at h
                      · split at h
                        · next e' heq =>
                            obtain rfl : e' = e := Except.error.inj h
                            exact ih.2 input e' heq
                        · exact Or.inr (parse_loop_close_error h)
                      · exact ih.1 input e h
    · intro x e h
      simp only [parse_instructionsF] at h
      split at h
      · split at h
        · simp at h
        · next e' heq =>
            obtain rfl : e' = e := Except.error.inj h
            exact ih.2 _ e' heq
      · simp at h
      · exact Or.inr (Except.error.inj h).symm
      · simp at h

lemma parse_instructionF_none_rest :
    ∀ f x r, parse_instructionF f x = .ok (none, r) → r = [] := by
  intro f
  induction f with
  | zero =>
    intro x r h
    match x with
    | [] =>
      simp only [parse_instructionF] at h
      injection h with h1
      injection h1 with h2 h3
      exact h3.symm
    | c :: t => simp [parse_instructionF] at h
  | succ f ih =>
    intro x r h
    match x with
    | [] =>
      simp only [parse_instructionF] at h
      injection h with h1
      injection h1 with h2 h3
      exact h3.symm
    | c :: input =>
      simp only [parse_instructionF] at h
      split at h
      · simp at h
      · split at h
        · simp at h
        · split at h
          · simp at h
          · split at h
            · simp at h
            · split at h
              · simp at h
              · split at h
                · simp at h
                · split at h
                  · simp at h
                  · split at h
                    · split at h
                      · simp at h
                      · exact absurd (parse_loop_close_ok h).2 (by simp)
                    · exact ih input r h

lemma parser_rest_length :
    ∀ f, (∀ x oi r, parse_instructionF f x = .ok (oi, r) → r.length ≤ x.length) ∧
         (∀ x i r, parse_instructionF f x = .ok (some i, r) → r.length < x.length) ∧
         (∀ x p r, parse_instructionsF f x = .ok (p, r) → r.length ≤ x.length) := by
  intro f
  induction f with
  | zero =>
    refine ⟨?_, ?_, ?_⟩
    · intro x oi r h
      match x with
      | [] =>
        simp only [parse_instructionF] at h
        injection h with h1
        injection h1 with h2 h3
        subst h3
        simp
      | c :: t => simp [parse_instructionF] at h
    · intro x i r h
      match x with
      | [] =>
        simp only [parse_instructionF] at h
        injection h with h1
        injection h1 with h2 h3
        exact Option.noConfusion h2
      | c :: t => simp [parse_instructionF] at h
    · intro x p r h
      simp [parse_instructionsF] at h
  | succ f ih =>
    obtain ⟨ihA, ihB, ihC⟩ := ih
    refine ⟨?_, ?_, ?_⟩
    · intro x oi r h
      match x with
      | [] =>
        simp only [parse_instructionF] at h
        injection h with h1
        injection h1 with h2 h3
        subst h3
        simp
      | c :: input =>
        simp only [List.length_cons]
        simp only [parse_instructionF] at h
        split at h
        · injection h with h1; injection h1 with h2 h3; subst h3; omega
        · split at h
          · injection h with h1; injection h1 with h2 h3; subst h3; omega
          · split at h
            · injection h with h1; injection h1 with h2 h3; subst h3; omega
            · split at h
              · injection h with h1; injection h1 with h2 h3; subst h3; omega
              · split at h
                · injection h with h1; injection h1 with h2 h3; subst h3; omega
                · split at h
                  · injection h with h1; injection h1 with h2 h3; subst h3; omega
                  · split at h
                    · simp at h
                    · split at h
                      · split at h
                        · simp at h
                        · rename_i program next_ heq
                          obtain ⟨hlt, -⟩ := parse_loop_close_ok h
                          have hnext := ihC input program next_ heq
                          omega
                      · have := ihA input oi r h
                        omega
    · intro x i r h
      match x with
      | [] =>
        simp only [parse_instructionF] at h
        injection h with h1
        injection h1 with h2 h3
        exact Option.noConfusion h2
      | c :: input =>
        simp only [List.length_cons]
        simp only [parse_instructionF] at h
        split at h
        · injection h with h1; injection h1 with h2 h3; subst h3; omega
        · split at h
          · injection h with h1; injection h1 with h2 h3; subst h3; omega
          · split at h
            · injection h with h1; injection h1 with h2 h3; subst h3; omega
            · split at h
              · injection h with h1; injection h1 with h2 h3; subst h3; omega
              · split at h
                · injection h with h1; injection h1 with h2 h3; subst h3; omega
                · split at h
                  · injection h with h1; injection h1 with h2 h3; subst h3; omega
                  · split at h
                    · simp at h
                    · split at h
                      · split at h
                        · simp at h
                        · rename_i program next_ heq
                          obtain ⟨hlt, -⟩ := parse_loop_close_ok h
                          have hnext := ihC input program next_ heq
                          omega
                      · have := ihB input i r h
                        omega
    · intro x p r h
      simp only [parse_instructionsF] at h
      split at h
      · rename_i instruction next_ heq
        split at h
        · rename_i instructions rest heq2
          injection h with h1
          injection h1 with h2 h3
          subst h3
          have h4 := ihB _ _ _ heq
          have h5 := ihC _ _ _ heq2
          omega
        · simp at h
      · rename_i next_ heq
        injection h with h1
        injection h1 with h2 h3
        subst h3
        exact ihA _ _ _ heq
      · simp at h
      · injection h with h1
        injection h1 with h2 h3
        subst h3
        exact le_refl _

lemma parser_fuel_stable :
    ∀ f, (∀ g x, 2 * x.length + 1 ≤ f → f ≤ g →
            parse_instructionF f x = parse_instructionF g x) ∧
         (∀ g x, 2 * x.length + 2 ≤ f → f ≤ g →
            parse_instructionsF f x = parse_instructionsF g x) := by
  intro f
  induction f with
  | zero =>
    exact ⟨fun g x hth _ => absurd hth (by omega),
           fun g x hth _ => absurd hth (by omega)⟩
  | succ f ih =>
    constructor
    · intro g x hth hle
      cases g with
      | zero => exact absurd hle (by omega)
      | succ g =>
        cases x with
        | nil => rfl
        | cons c input =>
          simp only [List.length_cons] at hth
          simp only [parse_instructionF]
          by_cases h60 : c = 60
          · simp [h60]
          by_cases h62 : c = 62
          · simp [h60, h62]
          by_cases h43 : c = 43
          · simp [h60, h62, h43]
          by_cases h45 : c = 45
          · simp [h60, h62, h43, h45]
          by_cases h44 : c = 44
          · simp [h60, h62, h43, h45, h44]
          by_cases h46 : c = 46
          · simp [h60, h62, h43, h45, h44, h46]
          by_cases h93 : c = 93
          · simp [h60, h62, h43, h45, h44, h46, h93]
          by_cases h91 : c = 91
          · simp only [if_neg h60, if_neg h62, if_neg h43, if_neg h45, if_neg h44,
              if_neg h46, if_neg h93, if_pos h91]
            rw [ih.2 g input (by omega) (by omega)]
          · simp only [if_neg h60, if_neg h62, if_neg h43, if_neg h45, if_neg h44,
              if_neg h46, if_neg h93, if_neg h91]
            exact ih.1 g input (by omega) (by omega)
    · intro g x hth hle
      cases g with
      | zero => exact absurd hle (by omega)
      | succ g =>
        simp only [parse_instructionsF]
        rw [ih.1 g x (by omega) (by omega)]
        cases hstep : parse_instructionF g x with
        | error e => cases e <;> rfl
        | ok val =>
          obtain ⟨oi, next⟩ := val
          cases oi with
          | none => rfl
          | some i =>
            have hnext : next.length < x.length := (parser_rest_length g).2.1 x i next hstep
            have hsz := ih.2 g next (by omega) (by omega)
            simp only [hsz]

lemma cmdOfByte_cases {c : UInt8} {cmd : Command} (h : cmdOfByte c = some cmd) :
    (c = 60 ∧ cmd = .Left) ∨ (c = 62 ∧ cmd = .Right) ∨ (c = 43 ∧ cmd = .Up) ∨
    (c = 45 ∧ cmd = .Down) ∨ (c = 44 ∧ cmd = .In) ∨ (c = 46 ∧ cmd = .Out) := by
  unfold cmdOfByte at h
  split_ifs at h <;> simp_all

lemma isCmd_of_cmdOfByte {c : UInt8} {cmd : Command} (h : cmdOfByte c = some cmd) :
    isCmd c := by
  rcases cmdOfByte_cases h with ⟨rfl, -⟩ | ⟨rfl, -⟩ | ⟨rfl, -⟩ | ⟨rfl, -⟩ | ⟨rfl, -⟩ | ⟨rfl, -⟩ <;>
    simp [isCmd]

lemma cmdOfByte_of_isCmd {c : UInt8} (h : isCmd c) (h91 : c ≠ 91) (h93 : c ≠ 93) :
    ∃ cmd, cmdOfByte c = some cmd := by
  rcases h with rfl | rfl | rfl | rfl | rfl | rfl | rfl | rfl
  · exact ⟨.Left, rfl⟩
  · exact ⟨.Right, rfl⟩
  · exact ⟨.Up, rfl⟩
  · exact ⟨.Down, rfl⟩
  · exact ⟨.In, rfl⟩
  · exact ⟨.Out, rfl⟩
  · exact absurd rfl h91
  · exact absurd rfl h93

/-- The recursion equation of `parse_instruction` at end of input. -/
lemma parse_instruction_nil : parse_instruction [] = .ok (none, []) := rfl

/-- The recursion equation of `parse_instruction` at an operation byte. -/
lemma parse_instruction_op {c : UInt8} {cmd : Command} (h : cmdOfByte c = some cmd)
    (input : List UInt8) :
    parse_instruction (c :: input) = .ok (some (.Op cmd), input) := by
  rcases cmdOfByte_cases h with ⟨rfl, rfl⟩ | ⟨rfl, rfl⟩ | ⟨rfl, rfl⟩ | ⟨rfl, rfl⟩ |
    ⟨rfl, rfl⟩ | ⟨rfl, rfl⟩ <;> rfl

/-- The recursion equation of `parse_instruction` at an unmatched `]`. -/
lemma parse_instruction_close (input : List UInt8) :
    parse_instruction (93 :: input) = .error .UnmatchedEnd := rfl

/-- The recursion equation of `parse_instruction` at `[`. -/
lemma parse_instruction_open (input : List UInt8) :
    parse_instruction (91 :: input) =
      match parse_instructions input with
      | .error e => .error e
      | .ok (program, next) => parse_loop_close program next := rfl

/-- The recursion equation of `parse_instruction` at a comment byte. -/
lemma parse_instruction_comment {c : UInt8} (hc : ¬ isCmd c) (input : List UInt8) :
    parse_instruction (c :: input) = parse_instruction input := by
  unfold isCmd at hc
  push_neg at hc
  obtain ⟨h60, h62, h43, h45, h44, h46, h91, h93⟩ := hc
  show parse_instructionF (2 * (c :: input).length + 1) (c :: input) = _
  rw [show 2 * (c :: input).length + 1 = (2 * input.length + 2) + 1 by
    simp [List.length_cons]; ring]
  simp only [parse_instructionF, if_neg h60, if_neg h62, if_neg h43, if_neg h45,
    if_neg h44, if_neg h46, if_neg h93, if_neg h91]
  exact ((parser_fuel_stable (2 * input.length + 1)).1 (2 * input.length + 2) input
    (le_refl _) (by omega)).symm

/-- The recursion equation of `parse_instructions`: it runs `parse_instruction`
in a loop exactly as lines 68-90 of `parser.rs` do. -/
lemma parse_instructions_unfold (input : List UInt8) :
    parse_instructions input =
      match parse_instruction input with
      | .ok (some instruction, next) =>
          match parse_instructions next with
          | .ok (instructions, rest) => .ok (instruction :: instructions, rest)
          | .error e => .error e
      | .ok (none, next) => .ok ([], next)
      | .error .UnmatchedBegin => .error .UnmatchedBegin
      | .error _ => .ok ([], input) := by
  have key : parse_instructions input =
      match parse_instruction input with
      | .ok (some instruction, next) =>
          match parse_instructionsF (2 * input.length + 1) next with
          | .ok (instructions, rest) => .ok (instruction :: instructions, rest)
          | .error e => .error e
      | .ok (none, next) => .ok ([], next)
      | .error .UnmatchedBegin => .error .UnmatchedBegin
      | .error _ => .ok ([], input) := rfl
  rw [key]
  cases hstep : parse_instruction input with
  | error e => cases e <;> rfl
  | ok val =>
    obtain ⟨oi, next⟩ := val
    cases oi with
    | none => rfl
    | some i =>
      have hnext : next.length < input.length := (parser_rest_length _).2.1 input i next hstep
      have hsz : parse_instructionsF (2 * input.length + 1) next = parse_instructions next := by
        show _ = parse_instructionsF (2 * next.length + 2) next
        exact ((parser_fuel_stable (2 * next.length + 2)).2 (2 * input.length + 1) next
          (le_refl _) (by omega)).symm
      simp only [hsz]

/-! ### The depth scan and the reference parse -/

/-- The left-to-right bracket-depth scan described by the spec: `some n` is
the final depth, `none` means some `]` occurred at depth 0. -/
def scan : List UInt8 → Nat → Option Nat
  | [], n => some n
  | c :: rest, n =>
      if c = 91 then scan rest (n + 1)
      else if c = 93 then
        match n with
        | 0 => none
        | m + 1 => scan rest m
      else scan rest n

/-- A list of bytes none of which is a command byte. -/
def AllComments (d : List UInt8) : Prop := ∀ c ∈ d, ¬ isCmd c

/-- The reference definition of parsing, taken from the claim: operation
bytes become `Op` in source order, a matched `[`...`]` pair becomes one
`Loop` whose body is the parse of the bytes strictly between the pair, and
non-command bytes are ignored. -/
inductive RefParse : List UInt8 → Program → Prop where
  | nil : RefParse [] []
  | comment {c : UInt8} {input : List UInt8} {p : Program} :
      ¬ isCmd c → RefParse input p → RefParse (c :: input) p
  | op {c : UInt8} {cmd : Command} {input : List UInt8} {p : Program} :
      cmdOfByte c = some cmd → RefParse input p →
      RefParse (c :: input) (.Op cmd :: p)
  | loop {body : List UInt8} {bp : Program} {input : List UInt8} {p : Program} :
      RefParse body bp → RefParse input p →
      RefParse (91 :: (body ++ 93 :: input)) (.Loop bp :: p)

lemma scan_append : ∀ (a b : List UInt8) (n : Nat),
    scan (a ++ b) n = (scan a n).bind (fun m => scan b m) := by
  intro a
  induction a with
  | nil => intro b n; rfl
  | cons c rest ih =>
    intro b n
    by_cases h91 : c = 91
    · simp only [List.cons_append, scan, if_pos h91]
      exact ih b (n + 1)
    · by_cases h93 : c = 93
      · simp only [List.cons_append, scan, if_neg h91, if_pos h93]
        cases n with
        | zero => rfl
        | succ m => exact ih b m
      · simp only [List.cons_append, scan, if_neg h91, if_neg h93]
        exact ih b n

lemma scan_shift : ∀ (a : List UInt8) (n m k : Nat), scan a n = some m →
    scan a (n + k) = some (m + k) := by
  intro a
  induction a with
  | nil =>
    intro n m k h
    simp only [scan, Option.some.injEq] at h ⊢
    omega
  | cons c rest ih =>
    intro n m k h
    simp only [scan] at h ⊢
    by_cases h91 : c = 91
    · simp only [if_pos h91] at h ⊢
      rw [show n + k + 1 = n + 1 + k by ring]
      exact ih (n + 1) m k h
    · by_cases h93 : c = 93
      · simp only [if_neg h91, if_pos h93] at h ⊢
        cases n with
        | zero => simp at h
        | succ j =>
          rw [show j + 1 + k = (j + k) + 1 by ring]
          exact ih j m k h
      · simp only [if_neg h91, if_neg h93] at h ⊢
        exact ih n m k h

lemma not_isCmd_ne {c : UInt8} (hc : ¬ isCmd c) :
    c ≠ 60 ∧ c ≠ 62 ∧ c ≠ 43 ∧ c ≠ 45 ∧ c ≠ 44 ∧ c ≠ 46 ∧ c ≠ 91 ∧ c ≠ 93 := by
  unfold isCmd at hc
  push_neg at hc
  exact hc

lemma allComments_cons {c : UInt8} {d : List UInt8} (h : AllComments (c :: d)) :
    ¬ isCmd c ∧ AllComments d :=
  ⟨h c (by simp), fun z hz => h z (by simp [hz])⟩

lemma scan_allComments : ∀ d, AllComments d → ∀ n, scan d n = some n := by
  intro d
  induction d with
  | nil => intro _ n; rfl
  | cons c rest ih =>
    intro h n
    obtain ⟨hc, hrest⟩ := allComments_cons h
    obtain ⟨-, -, -, -, -, -, h91, h93⟩ := not_isCmd_ne hc
    simp only [scan, if_neg h91, if_neg h93]
    exact ih hrest n

lemma first_cmd_decomp : ∀ x : List UInt8, AllComments x ∨
    ∃ d c y, x = d ++ c :: y ∧ AllComments d ∧ isCmd c := by
  intro x
  induction x with
  | nil => left; intro c hc; simp at hc
  | cons c rest ih =>
    by_cases hc : isCmd c
    · right
      exact ⟨[], c, rest, rfl, fun z hz => by simp at hz, hc⟩
    · rcases ih with h | ⟨d, c', y, rfl, hd, hc'⟩
      · left
        intro z hz
        rcases List.mem_cons.mp hz with rfl | hz
        · exact hc
        · exact h z hz
      · right
        refine ⟨c :: d, c', y, by simp, ?_, hc'⟩
        intro z hz
        rcases List.mem_cons.mp hz with rfl | hz
        · exact hc
        · exact hd z hz

lemma parse_instruction_comments : ∀ d, AllComments d → ∀ x,
    parse_instruction (d ++ x) = parse_instruction x := by
  intro d
  induction d with
  | nil => intro _ x; rfl
  | cons c rest ih =>
    intro h x
    obtain ⟨hc, hrest⟩ := allComments_cons h
    rw [List.cons_append, parse_instruction_comment hc, ih hrest x]

lemma parse_loop_close_comments : ∀ d, AllComments d → ∀ (p : Program) x,
    parse_loop_close p (d ++ 93 :: x) = .ok (some (.Loop p), x) := by
  intro d
  induction d with
  | nil => intro _ p x; simp [parse_loop_close]
  | cons c rest ih =>
    intro h p x
    obtain ⟨hc, hrest⟩ := allComments_cons h
    obtain ⟨-, -, -, -, -, -, -, h93⟩ := not_isCmd_ne hc
    rw [List.cons_append]
    simp only [parse_loop_close, if_neg h93]
    exact ih hrest p x

lemma refParse_allComments : ∀ d, AllComments d → ∀ p, RefParse d p → p = [] := by
  intro d
  induction d with
  | nil =>
    intro _ p h
    cases h
    rfl
  | cons c rest ih =>
    intro h p hp
    obtain ⟨hc, hrest⟩ := allComments_cons h
    cases hp with
    | comment h1 h2 => exact ih hrest _ h2
    | op h1 h2 => exact absurd (isCmd_of_cmdOfByte h1) hc
    | loop h1 h2 => exact absurd (by simp [isCmd] : isCmd 91) hc

lemma refParse_comments_nil : ∀ d, AllComments d → RefParse d [] := by
  intro d
  induction d with
  | nil => intro _; exact .nil
  | cons c rest ih =>
    intro h
    obtain ⟨hc, hrest⟩ := allComments_cons h
    exact .comment hc (ih hrest)

lemma refParse_cons_comment {c : UInt8} {t : List UInt8} {p : Program}
    (hc : ¬ isCmd c) (h : RefParse (c :: t) p) : RefParse t p := by
  cases h with
  | comment h1 h2 => exact h2
  | op h1 h2 => exact absurd (isCmd_of_cmdOfByte h1) hc
  | loop h1 h2 => exact absurd (by simp [isCmd] : isCmd 91) hc

lemma refParse_peel : ∀ d, AllComments d → ∀ x p, RefParse (d ++ x) p → RefParse x p := by
  intro d
  induction d with
  | nil => intro _ x p h; exact h
  | cons c rest ih =>
    intro h x p hp
    obtain ⟨hc, hrest⟩ := allComments_cons h
    rw [List.cons_append] at hp
    exact ih hrest x p (refParse_cons_comment hc hp)

lemma refParse_cons_cmd {c : UInt8} {y : List UInt8} {P : Program} (hc : isCmd c)
    (h : RefParse (c :: y) P) :
    (∃ cmd p, cmdOfByte c = some cmd ∧ P = .Op cmd :: p ∧ RefParse y p) ∨
    (c = 91 ∧ ∃ body bp rest p, y = body ++ 93 :: rest ∧ P = .Loop bp :: p ∧
      RefParse body bp ∧ RefParse rest p) := by
  cases h with
  | comment h1 h2 => exact absurd hc h1
  | op h1 h2 => exact Or.inl ⟨_, _, h1, rfl, h2⟩
  | loop h1 h2 => exact Or.inr ⟨rfl, _, _, _, _, rfl, rfl, h1, h2⟩

lemma refParse_append : ∀ {a A}, RefParse a A → ∀ {b B}, RefParse b B →
    RefParse (a ++ b) (A ++ B) := by
  intro a A h
  induction h with
  | nil => intro b B hb; exact hb
  | comment h1 _ ih => intro b B hb; exact .comment h1 (ih hb)
  | op h1 _ ih => intro b B hb; exact .op h1 (ih hb)
  | loop h1 _ ih1 ih2 =>
    intro b B hb
    have h3 := RefParse.loop h1 (ih2 hb)
    simpa [List.append_assoc] using h3

/-- Running `parse_instructions` after an all-comment prefix: the prefix is
consumed (or, when the parser stops immediately at an unmatched `]`, left in
the unconsumed rest). -/
lemma parse_instructions_comments_prefix (A : List UInt8) (hA : AllComments A)
    (b : List UInt8) :
    ∃ d, AllComments d ∧
      (d = [] ∨ parse_instruction b = .error .UnmatchedEnd) ∧
      (∀ Q r, parse_instructions b = .ok (Q, r) →
        parse_instructions (A ++ b) = .ok (Q, d ++ r)) ∧
      (∀ e, parse_instructions b = .error e →
        parse_instructions (A ++ b) = .error e) := by
  have hskip : parse_instruction (A ++ b) = parse_instruction b :=
    parse_instruction_comments A hA b
  cases hb : parse_instruction b with
  | ok val =>
    obtain ⟨oi, next⟩ := val
    cases oi with
    | some i =>
      have e1 : parse_instructions (A ++ b) = parse_instructions b := by
        rw [parse_instructions_unfold (A ++ b), parse_instructions_unfold b, hskip, hb]
      refine ⟨[], by intro z hz; simp at hz, Or.inl rfl, ?_, ?_⟩
      · intro Q r hQ
        rw [e1, hQ]
        simp
      · intro e hE
        rw [e1, hE]
    | none =>
      have hnext : next = [] := parse_instructionF_none_rest _ b next hb
      subst hnext
      have e2 : parse_instructions b = .ok ([], []) := by
        rw [parse_instructions_unfold b, hb]
      have e3 : parse_instructions (A ++ b) = .ok ([], []) := by
        rw [parse_instructions_unfold (A ++ b), hskip, hb]
      refine ⟨[], by intro z hz; simp at hz, Or.inl rfl, ?_, ?_⟩
      · intro Q r hQ
        rw [e2] at hQ
        injection hQ with h1
        injection h1 with h2 h3
        subst h2
        subst h3
        simpa using e3
      · intro e hE
        rw [e2] at hE
        simp at hE
  | error e' =>
    cases e' with
    | UnmatchedBegin =>
      have e2 : parse_instructions b = .error .UnmatchedBegin := by
        rw [parse_instructions_unfold b, hb]
      have e3 : parse_instructions (A ++ b) = .error .UnmatchedBegin := by
        rw [parse_instructions_unfold (A ++ b), hskip, hb]
      refine ⟨[], by intro z hz; simp at hz, Or.inl rfl, ?_, ?_⟩
      · intro Q r hQ
        rw [e2] at hQ
        simp at hQ
      · intro e hE
        rw [e2] at hE
        obtain rfl := Except.error.inj hE
        exact e3
    | UnmatchedEnd =>
      have e2 : parse_instructions b = .ok ([], b) := by
        rw [parse_instructions_unfold b, hb]
      have e3 : parse_instructions (A ++ b) = .ok ([], A ++ b) := by
        rw [parse_instructions_unfold (A ++ b), hskip, hb]
      refine ⟨A, hA, Or.inr rfl, ?_, ?_⟩
      · intro Q r hQ
        rw [e2] at hQ
        injection hQ with h1
        injection h1 with h2 h3
        subst h2
        subst h3
        exact e3
      · intro e hE
        rw [e2] at hE
        simp at hE
    | PointerUnderflow =>
      exact absurd ((parser_error_kinds _).1 b _ hb) (by simp)
    | PointerOverflow =>
      exact absurd ((parser_error_kinds _).1 b _ hb) (by simp)

/-- Running `parse_instructions` on `A ++ b` where `A` parses (by the
reference definition) to `P`: the instructions of `A` are produced first, and
what happens on `b` is appended, up to an all-comment residue `d` that can
remain unconsumed only when the parser stops at an unmatched `]`. -/
lemma parse_instructions_refParse_prefix :
    ∀ N A P, A.length ≤ N → RefParse A P → ∀ b,
      ∃ d, AllComments d ∧
        (d = [] ∨ parse_instruction b = .error .UnmatchedEnd) ∧
        (∀ Q r, parse_instructions b = .ok (Q, r) →
          parse_instructions (A ++ b) = .ok (P ++ Q, d ++ r)) ∧
        (∀ e, parse_instructions b = .error e →
          parse_instructions (A ++ b) = .error e) := by
  intro N
  induction N with
  | zero =>
    intro A P hlen hRef b
    have hA : A = [] := List.length_eq_zero.mp (Nat.le_zero.mp hlen)
    subst hA
    have hP : P = [] := by cases hRef; rfl
    subst hP
    obtain ⟨d, hd, hdisj, hok, herr⟩ :=
      parse_instructions_comments_prefix [] (by intro z hz; simp at hz) b
    exact ⟨d, hd, hdisj, fun Q r hQ => by simpa using hok Q r hQ, herr⟩
  | succ N ih =>
    intro A P hlen hRef b
    rcases first_cmd_decomp A with hA | ⟨d0, c, y, rfl, hd0, hc⟩
    · have hP : P = [] := refParse_allComments A hA P hRef
      subst hP
      obtain ⟨d, hd, hdisj, hok, herr⟩ := parse_instructions_comments_prefix A hA b
      exact ⟨d, hd, hdisj, fun Q r hQ => by simpa using hok Q r hQ, herr⟩
    · have hRef' : RefParse (c :: y) P := refParse_peel d0 hd0 _ P hRef
      rcases refParse_cons_cmd hc hRef' with ⟨cmd, p', hcmd, rfl, hy⟩ |
        ⟨rfl, body, bp, rest, p', rfl, rfl, hbody, hrest⟩
      · -- operation byte
        have hstep : parse_instruction ((d0 ++ c :: y) ++ b)
            = .ok (some (.Op cmd), y ++ b) := by
          rw [List.append_assoc, List.cons_append,
            parse_instruction_comments d0 hd0, parse_instruction_op hcmd]
        have hylen : y.length ≤ N := by
          simp only [List.length_append, List.length_cons] at hlen
          omega
        obtain ⟨d, hd, hdisj, hok, herr⟩ := ih y p' hylen hy b
        refine ⟨d, hd, hdisj, ?_, ?_⟩
        · intro Q r hQ
          have h5 := hok Q r hQ
          rw [parse_instructions_unfold ((d0 ++ c :: y) ++ b), hstep,
            List.append_assoc, List.cons_append]
          simp [h5]
        · intro e hE
          have h5 := herr e hE
          rw [parse_instructions_unfold ((d0 ++ c :: y) ++ b), hstep,
            List.append_assoc, List.cons_append]
          simp [h5]
      · -- loop
        have hblen : body.length ≤ N := by
          simp only [List.length_append, List.length_cons] at hlen
          omega
        have hrlen : rest.length ≤ N := by
          simp only [List.length_append, List.length_cons] at hlen
          omega
        have hbparse : parse_instructions (93 :: (rest ++ b))
            = .ok ([], 93 :: (rest ++ b)) := by
          rw [parse_instructions_unfold, parse_instruction_close]
        obtain ⟨d1, hd1, hdisj1, hok1, herr1⟩ := ih body bp hblen hbody (93 :: (rest ++ b))
        have hinner : parse_instructions (body ++ 93 :: (rest ++ b))
            = .ok (bp, d1 ++ 93 :: (rest ++ b)) := by
          have h6 := hok1 [] (93 :: (rest ++ b)) hbparse
          simpa using h6
        have hstep : parse_instruction ((d0 ++ 91 :: (body ++ 93 :: rest)) ++ b)
            = .ok (some (.Loop bp), rest ++ b) := by
          rw [List.append_assoc, List.cons_append,
            parse_instruction_comments d0 hd0, parse_instruction_open,
            show (body ++ 93 :: rest) ++ b = body ++ 93 :: (rest ++ b) by simp,
            hinner]
          exact parse_loop_close_comments d1 hd1 bp (rest ++ b)
        obtain ⟨d2, hd2, hdisj2, hok2, herr2⟩ := ih rest p' hrlen hrest b
        refine ⟨d2, hd2, hdisj2, ?_, ?_⟩
        · intro Q r hQ
          have h5 := hok2 Q r hQ
          rw [parse_instructions_unfold ((d0 ++ 91 :: (body ++ 93 :: rest)) ++ b), hstep]
          simp [h5]
        · intro e hE
          have h5 := herr2 e hE
          rw [parse_instructions_unfold ((d0 ++ 91 :: (body ++ 93 :: rest)) ++ b), hstep]
          simp [h5]

/-- A reference-parsable input is consumed entirely by `parse_instructions`. -/
lemma refParse_parse_instructions {x : List UInt8} {P : Program} (h : RefParse x P) :
    parse_instructions x = .ok (P, []) := by
  obtain ⟨d, hd, hdisj, hok, herr⟩ :=
    parse_instructions_refParse_prefix x.length x P (le_refl _) h []
  have hb : parse_instructions [] = .ok ([], []) := rfl
  have h2 := hok [] [] hb
  have hd0 : d = [] := by
    rcases hdisj with rfl | habs
    · rfl
    · rw [parse_instruction_nil] at habs
      simp at habs
  subst hd0
  simpa using h2

/-- A reference-parsable input is accepted by `parse_program`. -/
lemma refParse_parse_program {x : List UInt8} {P : Program} (h : RefParse x P) :
    parse_program x = .ok P := by
  unfold parse_program
  rw [refParse_parse_instructions h]

  rfl

lemma scan_close_decomp : ∀ x n, scan x n = none →
    ∃ A B, x = A ++ 93 :: B ∧ scan A n = some 0 := by
  intro x
  induction x with
  | nil => intro n h; simp [scan] at h
  | cons c t ih =>
    intro n h
    by_cases h91 : c = 91
    · subst h91
      have e : scan (91 :: t) n = scan t (n + 1) := rfl
      rw [e] at h
      obtain ⟨A', B, rfl, hA'⟩ := ih (n + 1) h
      exact ⟨91 :: A', B, rfl, hA'⟩
    · by_cases h93 : c = 93
      · subst h93
        cases n with
        | zero => exact ⟨[], t, rfl, rfl⟩
        | succ m =>
          have e : scan (93 :: t) (m + 1) = scan t m := rfl
          rw [e] at h
          obtain ⟨A', B, rfl, hA'⟩ := ih m h
          exact ⟨93 :: A', B, rfl, hA'⟩
      · have e : scan (c :: t) n = scan t n := by
          simp only [scan, if_neg h91, if_neg h93]
        rw [e] at h
        obtain ⟨A', B, rfl, hA'⟩ := ih n h
        refine ⟨c :: A', B, rfl, ?_⟩
        rw [show scan (c :: A') n = scan A' n from by
          simp only [scan, if_neg h91, if_neg h93]]
        exact hA'

lemma scan_open_decomp : ∀ L x k, x.length ≤ L → scan x 0 = some (k + 1) →
    ∃ A B, x = A ++ 91 :: B ∧ scan A 0 = some 0 ∧ scan B 0 = some k := by
  intro L
  induction L with
  | zero =>
    intro x k hlen h
    have hx : x = [] := List.length_eq_zero.mp (Nat.le_zero.mp hlen)
    subst hx
    simp [scan] at h
  | succ L ih =>
    intro x k hlen h
    cases x with
    | nil => simp [scan] at h
    | cons c t =>
      by_cases h91 : c = 91
      · subst h91
        rw [show scan (91 :: t) 0 = scan t 1 from rfl] at h
        cases hscan : scan t 0 with
        | some m =>
          have hsh : scan t 1 = some (m + 1) := scan_shift t 0 m 1 hscan
          rw [hsh] at h
          injection h with h1
          have hm : m = k := by omega
          refine ⟨[], t, rfl, rfl, ?_⟩
          rw [hscan, hm]
        | none =>
          obtain ⟨A', B', rfl, hA'⟩ := scan_close_decomp t 0 hscan
          have hA1 : scan A' 1 = some 1 := by
            have hsh := scan_shift A' 0 0 1 hA'
            simpa using hsh
          have hB' : scan B' 0 = some (k + 1) := by
            rw [scan_append, hA1] at h
            simp only [Option.some_bind] at h
            rw [show scan (93 :: B') 1 = scan B' 0 from rfl] at h
            exact h
          have hBlen : B'.length ≤ L := by
            simp only [List.length_cons, List.length_append] at hlen
            omega
          obtain ⟨A2, B2, rfl, hA2, hB2⟩ := ih B' k hBlen hB'
          refine ⟨91 :: (A' ++ 93 :: A2), B2, by simp, ?_, hB2⟩
          rw [show scan (91 :: (A' ++ 93 :: A2)) 0 = scan (A' ++ 93 :: A2) 1 from rfl,
            scan_append, hA1]
          simp only [Option.some_bind]
          rw [show scan (93 :: A2) 1 = scan A2 0 from rfl, hA2]
      · by_cases h93 : c = 93
        · subst h93
          rw [show scan (93 :: t) 0 = none from rfl] at h
          simp at h
        · rw [show scan (c :: t) 0 = scan t 0 from by
            simp only [scan, if_neg h91, if_neg h93]] at h
          obtain ⟨A', B, rfl, hA', hB⟩ := ih t k (by simp at hlen; omega) h
          refine ⟨c :: A', B, rfl, ?_, hB⟩
          rw [show scan (c :: A') 0 = scan A' 0 from by
            simp only [scan, if_neg h91, if_neg h93]]
          exact hA'

lemma scan_split1 : ∀ L t n, t.length ≤ L → scan t (n + 1) = some 0 →
    ∃ body rest, t = body ++ 93 :: rest ∧ scan body 0 = some 0 ∧ scan rest n = some 0 := by
  intro L
  induction L with
  | zero =>
    intro t n hlen h
    have ht : t = [] := List.length_eq_zero.mp (Nat.le_zero.mp hlen)
    subst ht
    simp [scan] at h
  | succ L ih =>
    intro t n hlen h
    cases t with
    | nil => simp [scan] at h
    | cons c t' =>
      by_cases h91 : c = 91
      · subst h91
        rw [show scan (91 :: t') (n + 1) = scan t' (n + 2) from rfl] at h
        obtain ⟨b, r, rfl, hb, hr⟩ := ih t' (n + 1) (by simp at hlen; omega) h
        obtain ⟨b2, r2, rfl, hb2, hr2⟩ := ih r n
          (by simp only [List.length_cons, List.length_append] at hlen; omega) hr
        refine ⟨91 :: (b ++ 93 :: b2), r2, by simp, ?_, hr2⟩
        have hb1 : scan b 1 = some 1 := by
          have hsh := scan_shift b 0 0 1 hb
          simpa using hsh
        rw [show scan (91 :: (b ++ 93 :: b2)) 0 = scan (b ++ 93 :: b2) 1 from rfl,
          scan_append, hb1]
        simp only [Option.some_bind]
        rw [show scan (93 :: b2) 1 = scan b2 0 from rfl, hb2]
      · by_cases h93 : c = 93
        · subst h93
          rw [show scan (93 :: t') (n + 1) = scan t' n from rfl] at h
          exact ⟨[], t', rfl, rfl, h⟩
        · rw [show scan (c :: t') (n + 1) = scan t' (n + 1) from by
            simp only [scan, if_neg h91, if_neg h93]] at h
          obtain ⟨b, r, rfl, hb, hr⟩ := ih t' n (by simp at hlen; omega) h
          refine ⟨c :: b, r, rfl, ?_, hr⟩
          rw [show scan (c :: b) 0 = scan b 0 from by
            simp only [scan, if_neg h91, if_neg h93]]
          exact hb

/-- Every balanced input has a reference parse. -/
lemma scan_refParse_exists : ∀ L x, x.length ≤ L → scan x 0 = some 0 →
    ∃ P, RefParse x P := by
  intro L
  induction L with
  | zero =>
    intro x hlen _
    have hx : x = [] := List.length_eq_zero.mp (Nat.le_zero.mp hlen)
    subst hx
    exact ⟨[], .nil⟩
  | succ L ih =>
    intro x hlen h
    cases x with
    | nil => exact ⟨[], .nil⟩
    | cons c t =>
      by_cases h91 : c = 91
      · subst h91
        rw [show scan (91 :: t) 0 = scan t 1 from rfl] at h
        obtain ⟨body, rest, rfl, hbody, hrest⟩ :=
          scan_split1 t.length t 0 (le_refl _) h
        obtain ⟨bp, hbp⟩ := ih body
          (by simp only [List.length_cons, List.length_append] at hlen ⊢; omega) hbody
        obtain ⟨p, hp⟩ := ih rest
          (by simp only [List.length_cons, List.length_append] at hlen ⊢; omega) hrest
        exact ⟨.Loop bp :: p, .loop hbp hp⟩
      · by_cases h93 : c = 93
        · subst h93
          rw [show scan (93 :: t) 0 = none from rfl] at h
          simp at h
        · rw [show scan (c :: t) 0 = scan t 0 from by
            simp only [scan, if_neg h91, if_neg h93]] at h
          obtain ⟨p, hp⟩ := ih t (by simp at hlen; omega) h
          by_cases hcmd : isCmd c
          · obtain ⟨cmd, hcm⟩ := cmdOfByte_of_isCmd hcmd h91 h93
            exact ⟨.Op cmd :: p, .op hcm hp⟩
          · exact ⟨p, .comment hcmd hp⟩

/-- An input whose depth scan aborts (a `]` at depth 0) is an `UnmatchedEnd`. -/
lemma parse_program_scan_none {x : List UInt8} (h : scan x 0 = none) :
    parse_program x = .error .UnmatchedEnd := by
  obtain ⟨A, B, rfl, hA⟩ := scan_close_decomp x 0 h
  obtain ⟨P, hP⟩ := scan_refParse_exists A.length A (le_refl _) hA
  obtain ⟨d, hd, hdisj, hok, herr⟩ :=
    parse_instructions_refParse_prefix A.length A P (le_refl _) hP (93 :: B)
  have hb : parse_instructions (93 :: B) = .ok ([], 93 :: B) := by
    rw [parse_instructions_unfold, parse_instruction_close]
  have h2 := hok [] (93 :: B) hb
  unfold parse_program
  rw [h2]
  simp

/-- An input whose depth scan ends at positive depth is an `UnmatchedBegin`;
this already holds at the `parse_instructions` level. -/
lemma parse_instructions_scan_open : ∀ L x, x.length ≤ L →
    ∀ k, scan x 0 = some (k + 1) →
      parse_instructions x = .error .UnmatchedBegin := by
  intro L
  induction L with
  | zero =>
    intro x hlen k h
    have hx : x = [] := List.length_eq_zero.mp (Nat.le_zero.mp hlen)
    subst hx
    simp [scan] at h
  | succ L ih =>
    intro x hlen k h
    obtain ⟨A, B, rfl, hA, hB⟩ := scan_open_decomp x.length x k (le_refl _) h
    obtain ⟨P, hP⟩ := scan_refParse_exists A.length A (le_refl _) hA
    obtain ⟨d, hd, hdisj, hok, herr⟩ :=
      parse_instructions_refParse_prefix A.length A P (le_refl _) hP (91 :: B)
    have hinner : parse_instructions (91 :: B) = .error .UnmatchedBegin := by
      rw [parse_instructions_unfold, parse_instruction_open]
      cases k with
      | zero =>
        obtain ⟨PB, hPB⟩ := scan_refParse_exists B.length B (le_refl _) hB
        rw [refParse_parse_instructions hPB]
        rfl
      | succ j =>
        have hBlen : B.length ≤ L := by
          simp only [List.length_append, List.length_cons] at hlen
          omega
        rw [ih B hBlen j hB]
    exact herr .UnmatchedBegin hinner

lemma parse_program_scan_open {x : List UInt8} {k : Nat}
    (h : scan x 0 = some (k + 1)) :
    parse_program x = .error .UnmatchedBegin := by
  unfold parse_program
  rw [parse_instructions_scan_open x.length x (le_refl _) k h]

/-- A balanced input parses, and to its reference parse. -/
lemma parse_program_balanced {x : List UInt8} (h : scan x 0 = some 0) :
    ∃ P, RefParse x P ∧ parse_program x = .ok P := by
  obtain ⟨P, hP⟩ := scan_refParse_exists x.length x (le_refl _) h
  exact ⟨P, hP, refParse_parse_program hP⟩

/-- Soundness: a successful parse satisfies the reference definition. -/
lemma parse_program_ok_refParse {x : List UInt8} {P : Program}
    (h : parse_program x = .ok P) : RefParse x P := by
  cases hscan : scan x 0 with
  | none =>
    rw [parse_program_scan_none hscan] at h
    simp at h
  | some n =>
    cases n with
    | zero =>
      obtain ⟨P', hP', hok⟩ := parse_program_balanced hscan
      rw [hok] at h
      obtain rfl : P' = P := Except.ok.inj h
      exact hP'
    | succ k =>
      rw [parse_program_scan_open hscan] at h
      simp at h

/-- A successful parse forces a balanced scan. -/
lemma parse_program_ok_scan {x : List UInt8} {P : Program}
    (h : parse_program x = .ok P) : scan x 0 = some 0 := by
  cases hscan : scan x 0 with
  | none =>
    rw [parse_program_scan_none hscan] at h
    simp at h
  | some n =>
    cases n with
    | zero => rfl
    | succ k =>
      rw [parse_program_scan_open hscan] at h
      simp at h

/-- Boolean form of `isCmd`, for filtering. -/
def isCmdB (c : UInt8) : Bool := decide (isCmd c)

lemma scan_filter : ∀ (x : List UInt8) (n : Nat),
    scan (x.filter isCmdB) n = scan x n := by
  intro x
  induction x with
  | nil => intro n; rfl
  | cons c t ih =>
    intro n
    by_cases hc : isCmd c
    · rw [List.filter_cons_of_pos (by simp [isCmdB, hc])]
      by_cases h91 : c = 91
      · subst h91
        rw [show scan (91 :: List.filter isCmdB t) n = scan (List.filter isCmdB t) (n + 1)
          from rfl]
        rw [show scan (91 :: t) n = scan t (n + 1) from rfl]
        exact ih (n + 1)
      · by_cases h93 : c = 93
        · subst h93
          cases n with
          | zero => rfl
          | succ m =>
            rw [show scan (93 :: List.filter isCmdB t) (m + 1)
              = scan (List.filter isCmdB t) m from rfl]
            rw [show scan (93 :: t) (m + 1) = scan t m from rfl]
            exact ih m
        · rw [show scan (c :: List.filter isCmdB t) n = scan (List.filter isCmdB t) n
            from by simp only [scan, if_neg h91, if_neg h93]]
          rw [show scan (c :: t) n = scan t n from by
            simp only [scan, if_neg h91, if_neg h93]]
          exact ih n
    · rw [List.filter_cons_of_neg (by simp [isCmdB, hc])]
      obtain ⟨-, -, -, -, -, -, h91, h93⟩ := not_isCmd_ne hc
      rw [show scan (c :: t) n = scan t n from by
        simp only [scan, if_neg h91, if_neg h93]]
      exact ih n

lemma refParse_filter : ∀ {x : List UInt8} {P : Program}, RefParse x P →
    RefParse (x.filter isCmdB) P := by
  intro x P h
  induction h with
  | nil => exact .nil
  | comment h1 _ ih =>
    rw [List.filter_cons_of_neg (by simp [isCmdB, h1])]
    exact ih
  | op h1 _ ih =>
    rw [List.filter_cons_of_pos (by simp [isCmdB, isCmd_of_cmdOfByte h1])]
    exact .op h1 ih
  | loop _ _ ih1 ih2 =>
    rw [List.filter_cons_of_pos (by simp [isCmdB]; decide)]
    rename_i body bp input p _ _
    rw [List.filter_append body (93 :: input),
      List.filter_cons_of_pos (by simp [isCmdB]; decide)]
    exact .loop ih1 ih2

/-! ### Claims about the parser -/

/-- C1: for every input byte sequence whose brackets are balanced (the depth
scan never closes at depth 0 and ends at depth 0), `parse_program` returns
`Ok` of the program given by the reference definition `RefParse`: operation
bytes become the corresponding `Op` in source order and each matched
`[`...`]` pair becomes a single `Loop` whose body is the parse of the bytes
strictly between the pair. -/
theorem parse_program_matches_reference (input : List UInt8)
    (h : scan input 0 = some 0) :
    ∃ P, RefParse input P ∧ parse_program input = .ok P :=
  parse_program_balanced h

theorem parse_program_matches_reference_witness :
    scan [91, 60, 93] 0 = some 0 ∧
      ∃ P, RefParse [91, 60, 93] P ∧ parse_program [91, 60, 93] = .ok P :=
  ⟨by decide, parse_program_matches_reference [91, 60, 93] (by decide)⟩

/-- C2: `parse_program` errs exactly on unbalanced brackets, and the error
identifies the kind of imbalance: a `]` at depth 0 during the left-to-right
depth scan gives `UnmatchedEnd`; otherwise a `[` still open at end of input
gives `UnmatchedBegin`; otherwise the parse succeeds.  These are the only two
errors the parser produces. -/
theorem parse_program_error_characterization (input : List UInt8) :
    ((∃ P, parse_program input = .ok P) ↔ scan input 0 = some 0) ∧
    (parse_program input = .error .UnmatchedEnd ↔ scan input 0 = none) ∧
    (parse_program input = .error .UnmatchedBegin ↔
      ∃ k, scan input 0 = some (k + 1)) := by
  refine ⟨⟨?_, ?_⟩, ⟨?_, ?_⟩, ⟨?_, ?_⟩⟩
  · rintro ⟨P, hP⟩
    exact parse_program_ok_scan hP
  · intro h
    obtain ⟨P, -, hP⟩ := parse_program_balanced h
    exact ⟨P, hP⟩
  · intro h
    cases hscan : scan input 0 with
    | none => rfl
    | some n =>
      cases n with
      | zero =>
        obtain ⟨P, -, hP⟩ := parse_program_balanced hscan
        rw [hP] at h
        simp at h
      | succ k =>
        rw [parse_program_scan_open hscan] at h
        simp at h
  · intro h
    exact parse_program_scan_none h
  · intro h
    cases hscan : scan input 0 with
    | none =>
      rw [parse_program_scan_none hscan] at h
      simp at h
    | some n =>
      cases n with
      | zero =>
        obtain ⟨P, -, hP⟩ := parse_program_balanced hscan
        rw [hP] at h
        simp at h
      | succ k => exact ⟨k, rfl⟩
  · rintro ⟨k, hk⟩
    exact parse_program_scan_open hk

/-- C3: `parse_program` is total: it is a function defined on every byte
sequence (so it terminates on every input, arbitrarily nested brackets
included), and its result is always either `Ok` of a program or one of the
two structural errors `UnmatchedBegin` / `UnmatchedEnd`. -/
theorem parse_program_total (input : List UInt8) :
    (∃ P, parse_program input = .ok P) ∨
    parse_program input = .error .UnmatchedBegin ∨
    parse_program input = .error .UnmatchedEnd := by
  cases hscan : scan input 0 with
  | none => exact Or.inr (Or.inr (parse_program_scan_none hscan))
  | some n =>
    cases n with
    | zero =>
      obtain ⟨P, -, hP⟩ := parse_program_balanced hscan
      exact Or.inl ⟨P, hP⟩
    | succ k => exact Or.inr (Or.inl (parse_program_scan_open hscan))

/-- C9: comment transparency: parsing an input gives exactly the same result
(`Ok` or error) as parsing the input with every non-command byte removed. -/
theorem parse_program_comment_transparent (input : List UInt8) :
    parse_program input = parse_program (input.filter isCmdB) := by
  cases hscan : scan input 0 with
  | none =>
    rw [parse_program_scan_none hscan,
      parse_program_scan_none (x := input.filter isCmdB) (by rw [scan_filter]; exact hscan)]
  | some n =>
    cases n with
    | zero =>
      obtain ⟨P, hRef, hP⟩ := parse_program_balanced hscan
      rw [hP, refParse_parse_program (refParse_filter hRef)]
    | succ k =>
      rw [parse_program_scan_open hscan,
        parse_program_scan_open (x := input.filter isCmdB) (k := k)
          (by rw [scan_filter]; exact hscan)]

/-- C10: parsing is a homomorphism on successfully parsed inputs: if two
inputs parse to `A` and `B`, their concatenation parses to `A ++ B`. -/
theorem parse_program_append_homomorphism (a b : List UInt8) (A B : Program)
    (ha : parse_program a = .ok A) (hb : parse_program b = .ok B) :
    parse_program (a ++ b) = .ok (A ++ B) :=
  refParse_parse_program
    (refParse_append (parse_program_ok_refParse ha) (parse_program_ok_refParse hb))

theorem parse_program_append_homomorphism_witness :
    parse_program [43] = .ok [.Op .Up] ∧ parse_program [45] = .ok [.Op .Down] ∧
      parse_program ([43] ++ [45]) = .ok ([.Op .Up] ++ [.Op .Down]) :=
  ⟨rfl, rfl, parse_program_append_homomorphism [43] [45] [.Op .Up] [.Op .Down] rfl rfl⟩

/-! ### The optimization pipeline and the execution model (modelled from the
spec: the `rle`, `peephole`, `jit::compiler` and `jit::rts` modules are not
in the source tree) -/

/-- Modelled from the spec: `OptimizedInstruction` (spec section 3), the
post-pipeline instruction set: counted pointer moves, counted cell
arithmetic at an offset, I/O, the closed-form `SetZero`, and loops. -/
inductive OptimizedInstruction where
  | Move (delta : Int)
  | Add (delta : Int) (offset : Int)
  | Input
  | Output
  | SetZero
  | Loop (body : List OptimizedInstruction)

/-- Whether an instruction is a pointer-move command. -/
def isMoveOp : Instruction → Bool
  | .Op .Left => true
  | .Op .Right => true
  | _ => false

/-- Whether an instruction is a cell-arithmetic command. -/
def isAddOp : Instruction → Bool
  | .Op .Up => true
  | .Op .Down => true
  | _ => false

/-- Signed pointer displacement of a command (left is negative). -/
def moveDelta : Instruction → Int
  | .Op .Left => -1
  | .Op .Right => 1
  | _ => 0

/-- Signed cell increment of a command (decrement is negative). -/
def addDelta : Instruction → Int
  | .Op .Up => 1
  | .Op .Down => -1
  | _ => 0

/-- Sum of a per-instruction delta over a run of instructions. -/
def listDelta (f : Instruction → Int) (l : List Instruction) : Int :=
  (l.map f).sum

lemma sizeOf_dropWhile_le (p : Instruction → Bool) :
    ∀ l : List Instruction, sizeOf (List.dropWhile p l) ≤ sizeOf l := by
  intro l
  induction l with
  | nil => simp [List.dropWhile]
  | cons a t ih =>
    simp only [List.dropWhile]
    split
    · have h2 : sizeOf t ≤ sizeOf (a :: t) := by
        simp only [List.cons.sizeOf_spec]
        omega
      exact Nat.le_trans ih h2
    · exact le_refl _

/-- Modelled from the spec: the Coalescing Pass (spec section 4.1, the `rle`
module is not in the source tree).  Scan left to right; a maximal run of
pointer moves becomes one `Move` with the signed sum, a maximal run of cell
arithmetic becomes one `Add` with the signed sum at offset 0, a zero net
delta is dropped, `,` and `.` become `Input`/`Output`, and loop bodies are
coalesced recursively. -/
def coalesce : List Instruction → List OptimizedInstruction
  | [] => []
  | .Op .Left :: rest =>
      (if -1 + listDelta moveDelta (List.takeWhile isMoveOp rest) = 0 then []
       else [.Move (-1 + listDelta moveDelta (List.takeWhile isMoveOp rest))])
        ++ coalesce (List.dropWhile isMoveOp rest)
  | .Op .Right :: rest =>
      (if 1 + listDelta moveDelta (List.takeWhile isMoveOp rest) = 0 then []
       else [.Move (1 + listDelta moveDelta (List.takeWhile isMoveOp rest))])
        ++ coalesce (List.dropWhile isMoveOp rest)
  | .Op .Up :: rest =>
      (if 1 + listDelta addDelta (List.takeWhile isAddOp rest) = 0 then []
       else [.Add (1 + listDelta addDelta (List.takeWhile isAddOp rest)) 0])
        ++ coalesce (List.dropWhile isAddOp rest)
  | .Op .Down :: rest =>
      (if -1 + listDelta addDelta (List.takeWhile isAddOp rest) = 0 then []
       else [.Add (-1 + listDelta addDelta (List.takeWhile isAddOp rest)) 0])
        ++ coalesce (List.dropWhile isAddOp rest)
  | .Op .In :: rest => .Input :: coalesce rest
  | .Op .Out :: rest => .Output :: coalesce rest
  | .Loop body :: rest => .Loop (coalesce body) :: coalesce rest
termination_by l => sizeOf l
decreasing_by
  all_goals simp_wf
  all_goals first
    | (have h := sizeOf_dropWhile_le isMoveOp rest; omega)
    | (have h := sizeOf_dropWhile_le isAddOp rest; omega)

/-- Modelled from the spec: the zeroing idiom (spec section 4.2): a loop
body that is exactly one `Add` with delta congruent to plus or minus 1
modulo the cell width 256, at offset 0, and nothing else. -/
def isZeroIdiomBody : List OptimizedInstruction → Bool
  | [.Add d off] => off == 0 && (d % 256 == 1 || d % 256 == 255)
  | _ => false

/-- Modelled from the spec: the Peephole Pass (spec section 4.2, the
`peephole` module is not in the source tree): rewrite a zeroing-idiom loop
to `SetZero`, recursively optimize any other loop body, pass everything else
through unchanged. -/
def optimize : List OptimizedInstruction → List OptimizedInstruction
  | [] => []
  | .Loop body :: rest =>
      (if isZeroIdiomBody body then .SetZero else .Loop (optimize body)) :: optimize rest
  | i :: rest => i :: optimize rest
termination_by l => sizeOf l

-- Sanity checks for the pipeline model.
example : coalesce [.Op .Left] = [.Move (-1)] := by simp [coalesce, listDelta]
example : coalesce [.Op .Left, .Op .Right] = [] := by
  simp [coalesce, listDelta, List.takeWhile, List.dropWhile, isMoveOp, moveDelta]
example : coalesce [.Op .Up, .Op .Up, .Op .Down] = [.Add 1 0] := by
  simp [coalesce, listDelta, List.takeWhile, List.dropWhile, isAddOp, addDelta]
example : optimize [.Loop [.Add (-1) 0]] = [.SetZero] := by
  simp [optimize, isZeroIdiomBody]
example : optimize [.Loop [.Add 2 0]] = [.Loop [.Add 2 0]] := by
  simp [optimize, isZeroIdiomBody]

/-- Modelled from the spec: the Tape Runtime (spec sections 3 and 4.4): a
fixed-capacity array of byte cells, a pointer index (an integer, so that
unchecked mode can move it out of range), the remaining host input and the
output written so far. -/
structure TapeState where
  tape : List Nat
  pointer : Int
  input : List Nat
  output : List Nat

/-- Read the cell at an index; out-of-range reads give 0 (the model keeps
unchecked execution total without turning bound violations into errors). -/
def cellAt (s : TapeState) (idx : Int) : Nat :=
  if 0 ≤ idx then s.tape.getD idx.toNat 0 else 0

/-- Write the cell at an index; out-of-range writes are dropped. -/
def setCellAt (s : TapeState) (idx : Int) (v : Nat) : TapeState :=
  if 0 ≤ idx then { s with tape := s.tape.set idx.toNat v } else s

/-- The initial runtime state: pointer 0, all cells 0 (spec section 4.4). -/
def initState (cap : Nat) (input : List Nat) : TapeState :=
  ⟨List.replicate cap 0, 0, input, []⟩

/-- Modelled from the spec: execution of a generated artifact (spec sections
4.3, 4.4 and 6), as a fuel-bounded interpreter of the optimized instruction
stream.  `none` means the fuel ran out (the program runs longer); `some`
carries the `run` result (`Ok(())` or a pointer fault) together with the
final runtime state.  In checked mode (`unchecked = false`) every `Move` is
bounds-checked and faults abort execution at that exact instruction with the
state untouched; in unchecked mode the check is omitted entirely.  Cell
arithmetic wraps modulo 256.  `Input` at end of stream leaves the cell
unchanged. -/
def execF (unchecked : Bool) (cap : Nat) :
    Nat → List OptimizedInstruction → TapeState → Option (Except Error Unit × TapeState)
  | 0, _, _ => none
  | _ + 1, [], s => some (.ok (), s)
  | fuel + 1, i :: rest, s =>
      match i with
      | .Move d =>
          if unchecked then execF unchecked cap fuel rest { s with pointer := s.pointer + d }
          else if s.pointer + d < 0 then some (.error .PointerUnderflow, s)
          else if (cap : Int) ≤ s.pointer + d then some (.error .PointerOverflow, s)
          else execF unchecked cap fuel rest { s with pointer := s.pointer + d }
      | .Add d off =>
          execF unchecked cap fuel rest
            (setCellAt s (s.pointer + off)
              ((((cellAt s (s.pointer + off) : Int) + d) % 256).toNat))
      | .Input =>
          match s.input with
          | [] => execF unchecked cap fuel rest s
          | b :: bs =>
              execF unchecked cap fuel rest (setCellAt { s with input := bs } s.pointer b)
      | .Output =>
          execF unchecked cap fuel rest { s with output := s.output ++ [cellAt s s.pointer] }
      | .SetZero => execF unchecked cap fuel rest (setCellAt s s.pointer 0)
      | .Loop body =>
          if cellAt s s.pointer = 0 then execF unchecked cap fuel rest s
          else
            match execF unchecked cap fuel body s with
            | none => none
            | some (.error e, s2) => some (.error e, s2)
            | some (.ok _, s2) => execF unchecked cap fuel (.Loop body :: rest) s2

/-- Modelled from the spec: `CompiledArtifact` (spec sections 3 and 4.3) at
the semantic level: the behavior of the generated code is that of the
optimized program, with the bounds-checking mode fixed at generation time. -/
structure CompiledArtifact where
  program : List OptimizedInstruction
  unchecked : Bool

/-- Modelled from the spec: `generate(OptimizedProgram, unchecked) ->
CompiledArtifact` (spec section 4.3): the mode flag is baked into the
artifact once, at generation time. -/
def generate (p : List OptimizedInstruction) (unchecked : Bool) : CompiledArtifact :=
  ⟨p, unchecked⟩

/-- Modelled from the spec: `run(artifact, tape_runtime)` (spec section 6),
using the artifact's stored mode flag. -/
def run (a : CompiledArtifact) (cap fuel : Nat) (s : TapeState) :
    Option (Except Error Unit × TapeState) :=
  execF a.unchecked cap fuel a.program s

/-- `jit::Program` (lines 27-30 of `src/src/jit/mod.rs`): the representation
of a JIT-compiled program is exactly an executable code buffer
(`dynasmrt::ExecutableBuffer`, modelled by its byte contents) and an entry
offset (`dynasmrt::AssemblyOffset`).  Renamed from `Program` here because
the parser's `Program` takes that name. -/
structure JitProgram where
  code : List UInt8
  start : Nat

/-! ### Execution lemmas -/

lemma execF_nil (u : Bool) (cap fuel : Nat) (s : TapeState) :
    execF u cap (fuel + 1) [] s = some (.ok (), s) := rfl

lemma execF_add (u : Bool) (cap fuel : Nat) (d off : Int)
    (rest : List OptimizedInstruction) (s : TapeState) :
    execF u cap (fuel + 1) (.Add d off :: rest) s
      = execF u cap fuel rest
          (setCellAt s (s.pointer + off)
            ((((cellAt s (s.pointer + off) : Int) + d) % 256).toNat)) := rfl

lemma execF_setZero (u : Bool) (cap fuel : Nat)
    (rest : List OptimizedInstruction) (s : TapeState) :
    execF u cap (fuel + 1) (.SetZero :: rest) s
      = execF u cap fuel rest (setCellAt s s.pointer 0) := rfl

lemma execF_loop_zero (u : Bool) (cap fuel : Nat)
    (body rest : List OptimizedInstruction) (s : TapeState)
    (h : cellAt s s.pointer = 0) :
    execF u cap (fuel + 1) (.Loop body :: rest) s = execF u cap fuel rest s := by
  simp only [execF]
  rw [if_pos h]

lemma execF_loop_iter (u : Bool) (cap fuel : Nat)
    (body rest : List OptimizedInstruction) (s s2 : TapeState)
    (h : ¬ cellAt s s.pointer = 0)
    (hbody : execF u cap fuel body s = some (.ok (), s2)) :
    execF u cap (fuel + 1) (.Loop body :: rest) s
      = execF u cap fuel (.Loop body :: rest) s2 := by
  simp only [execF]
  rw [if_neg h, hbody]

/-- More fuel never changes a result that was already reached. -/
lemma execF_mono (u : Bool) (cap : Nat) :
    ∀ f g, f ≤ g → ∀ p s r, execF u cap f p s = some r → execF u cap g p s = some r := by
  intro f
  induction f with
  | zero => intro g _ p s r h; simp [execF] at h
  | succ f ih =>
    intro g hg p s r h
    cases g with
    | zero => omega
    | succ g =>
      have hfg : f ≤ g := by omega
      cases p with
      | nil => exact h
      | cons i rest =>
        cases i with
        | Move d =>
          simp only [execF] at h ⊢
          split at h
          · next hu => rw [if_pos hu]; exact ih g hfg _ _ _ h
          · next hu =>
              rw [if_neg hu]
              split at h
              · next h0 => rw [if_pos h0]; exact h
              · next h0 =>
                  rw [if_neg h0]
                  split at h
                  · next h1 => rw [if_pos h1]; exact h
                  · next h1 => rw [if_neg h1]; exact ih g hfg _ _ _ h
        | Add d off =>
          simp only [execF] at h ⊢
          exact ih g hfg _ _ _ h
        | Input =>
          simp only [execF] at h ⊢
          split at h
          · next heq => rw [heq] at *; exact ih g hfg _ _ _ h
          · next b bs heq => rw [heq] at *; exact ih g hfg _ _ _ h
        | Output =>
          simp only [execF] at h ⊢
          exact ih g hfg _ _ _ h
        | SetZero =>
          simp only [execF] at h ⊢
          exact ih g hfg _ _ _ h
        | Loop body =>
          simp only [execF] at h ⊢
          split at h
          · next h0 => rw [if_pos h0]; exact ih g hfg _ _ _ h
          · next h0 =>
              rw [if_neg h0]
              cases hbody : execF u cap f body s with
              | none => rw [hbody] at h; simp at h
              | some rb =>
                  obtain ⟨eb, sb⟩ := rb
                  rw [ih g hfg _ _ _ hbody]
                  rw [hbody] at h
                  cases eb with
                  | error e => exact h
                  | ok uu => exact ih g hfg _ _ _ h

/-- In unchecked mode no pointer error is ever constructed: every result
that is reached is `Ok`. -/
lemma execF_unchecked_ok (cap : Nat) :
    ∀ fuel p s r st, execF true cap fuel p s = some (r, st) → r = .ok () := by
  intro fuel
  induction fuel with
  | zero => intro p s r st h; simp [execF] at h
  | succ fuel ih =>
    intro p s r st h
    cases p with
    | nil =>
      injection h with h1
      injection h1 with h2 h3
      exact h2.symm
    | cons i rest =>
      cases i with
      | Move d =>
        simp only [execF] at h
        rw [if_pos trivial] at h
        exact ih _ _ _ _ h
      | Add d off =>
        simp only [execF] at h
        exact ih _ _ _ _ h
      | Input =>
        simp only [execF] at h
        split at h
        · exact ih _ _ _ _ h
        · exact ih _ _ _ _ h
      | Output =>
        simp only [execF] at h
        exact ih _ _ _ _ h
      | SetZero =>
        simp only [execF] at h
        exact ih _ _ _ _ h
      | Loop body =>
        simp only [execF] at h
        split at h
        · exact ih _ _ _ _ h
        · split at h
          · simp at h
          · next e s2 heq =>
              have := ih _ _ _ _ heq
              simp at this
          · exact ih _ _ _ _ h

/-! ### Cell helper lemmas -/

lemma list_set_getD_zero : ∀ (l : List Nat) (n : Nat), l.getD n 0 = 0 → l.set n 0 = l := by
  intro l
  induction l with
  | nil => intro n _; rfl
  | cons a t ih =>
    intro n h
    cases n with
    | zero =>
      simp only [List.getD, List.get?, Option.getD] at h
      simp [List.set, h]
    | succ m =>
      simp only [List.getD] at h
      simp [List.set, ih m (by simpa using h)]

lemma list_getD_set_self : ∀ (l : List Nat) (n v : Nat), n < l.length →
    (l.set n v).getD n 0 = v := by
  intro l
  induction l with
  | nil => intro n v h; simp at h
  | cons a t ih =>
    intro n v h
    cases n with
    | zero => simp [List.set, List.getD]
    | succ m =>
      simp only [List.set, List.getD]
      have := ih m v (by simpa using h)
      simpa [List.getD] using this

lemma setCellAt_self_zero {s : TapeState} {i : Int} (h : cellAt s i = 0) :
    setCellAt s i 0 = s := by
  by_cases h0 : (0 : Int) ≤ i
  · unfold setCellAt
    rw [if_pos h0]
    unfold cellAt at h
    rw [if_pos h0] at h
    rw [list_set_getD_zero s.tape i.toNat h]
  · unfold setCellAt
    rw [if_neg h0]

lemma setCellAt_pointer (s : TapeState) (i : Int) (v : Nat) :
    (setCellAt s i v).pointer = s.pointer := by
  unfold setCellAt
  split <;> rfl

lemma cellAt_setCellAt_self {s : TapeState} {i : Int} {v : Nat} (h0 : 0 ≤ i)
    (hr : i.toNat < s.tape.length) : cellAt (setCellAt s i v) i = v := by
  unfold cellAt setCellAt
  rw [if_pos h0]
  simp only [if_pos h0]
  exact list_getD_set_self s.tape i.toNat v hr

lemma cellAt_pos_in_range {s : TapeState} {i : Int} {v : Nat}
    (h : cellAt s i = v) (hv : 0 < v) : 0 ≤ i ∧ i.toNat < s.tape.length := by
  unfold cellAt at h
  by_cases h0 : (0 : Int) ≤ i
  · rw [if_pos h0] at h
    refine ⟨h0, ?_⟩
    by_contra hge
    rw [List.getD_eq_default _ _ (by omega)] at h
    omega
  · rw [if_neg h0] at h
    omega

lemma setCellAt_setCellAt (s : TapeState) (i : Int) (a b : Nat) :
    setCellAt (setCellAt s i a) i b = setCellAt s i b := by
  unfold setCellAt
  by_cases h0 : (0 : Int) ≤ i
  · simp only [if_pos h0, List.set_set]
  · simp only [if_neg h0]

/-- Executing the zeroing-idiom loop `[Add d 0]`, with `d` congruent to plus
or minus 1 mod 256, terminates from any starting cell value below 256 and
leaves exactly the current cell at 0 (when the cell starts at 0 the loop
body never runs). -/
lemma execF_zero_loop (u : Bool) (cap : Nat) (d : Int)
    (hd : d % 256 = 1 ∨ d % 256 = 255) :
    ∀ (k v : Nat) (s : TapeState), v < 256 → cellAt s s.pointer = v →
    (v = 0 ∨ (d % 256 = 255 ∧ v ≤ k) ∨ (d % 256 = 1 ∧ 256 - v ≤ k)) →
    ∃ n, execF u cap n [.Loop [.Add d 0]] s = some (.ok (), setCellAt s s.pointer 0) := by
  intro k
  induction k with
  | zero =>
    intro v s hv hc hcase
    have hv0 : v = 0 := by
      rcases hcase with h | ⟨-, h⟩ | ⟨-, h⟩
      · exact h
      · omega
      · omega
    subst hv0
    rw [setCellAt_self_zero hc]
    exact ⟨0 + 1 + 1, by rw [execF_loop_zero _ _ _ _ _ _ hc, execF_nil]⟩
  | succ k ih =>
    intro v s hv hc hcase
    by_cases hv0 : v = 0
    · subst hv0
      rw [setCellAt_self_zero hc]
      exact ⟨0 + 1 + 1, by rw [execF_loop_zero _ _ _ _ _ _ hc, execF_nil]⟩
    · have hrange := cellAt_pos_in_range hc (Nat.pos_of_ne_zero hv0)
      set v2 : Nat := (((v : Int) + d) % 256).toNat with hv2def
      have hbody : ∀ m, execF u cap (m + 1 + 1) [.Add d 0] s
          = some (.ok (), setCellAt s s.pointer v2) := by
        intro m
        rw [execF_add]
        simp only [add_zero, hc]
        rw [execF_nil]
      have hptr : (setCellAt s s.pointer v2).pointer = s.pointer :=
        setCellAt_pointer s s.pointer v2
      have hc2 : cellAt (setCellAt s s.pointer v2) (setCellAt s s.pointer v2).pointer = v2 := by
        rw [hptr]
        exact cellAt_setCellAt_self hrange.1 hrange.2
      have hv2lt : v2 < 256 := by
        have h1 : 0 ≤ ((v : Int) + d) % 256 := Int.emod_nonneg _ (by norm_num)
        have h2 : ((v : Int) + d) % 256 < 256 := Int.emod_lt_of_pos _ (by norm_num)
        omega
      have hcase2 : v2 = 0 ∨ (d % 256 = 255 ∧ v2 ≤ k) ∨ (d % 256 = 1 ∧ 256 - v2 ≤ k) := by
        rcases hd with hd1 | hd255
        · by_cases hv255 : v = 255
          · left
            omega
          · right; right
            refine ⟨hd1, ?_⟩
            rcases hcase with h | ⟨ha, -⟩ | ⟨-, hb⟩
            · omega
            · omega
            · omega
        · right; left
          refine ⟨hd255, ?_⟩
          rcases hcase with h | ⟨-, hb⟩ | ⟨ha, -⟩
          · omega
          · omega
          · omega
      obtain ⟨m, hm⟩ := ih v2 (setCellAt s s.pointer v2) hv2lt hc2 hcase2
      have hstates : setCellAt (setCellAt s s.pointer v2) (setCellAt s s.pointer v2).pointer 0
          = setCellAt s s.pointer 0 := by
        rw [hptr, setCellAt_setCellAt]
      rw [hstates] at hm
      have hm2 := execF_mono u cap m (m + 1 + 1) (by omega) _ _ _ hm
      refine ⟨m + 1 + 1 + 1, ?_⟩
      rw [execF_loop_iter u cap (m + 1 + 1) [.Add d 0] [] s (setCellAt s s.pointer v2)
        (by rw [hc]; exact fun hh => hv0 hh) (hbody m)]
      exact hm2

/-! ### Claims about the pipeline and the generated artifact -/

/-- C4: for every program, running an artifact generated with the unchecked
flag set never returns `Err(PointerUnderflow)` or `Err(PointerOverflow)`:
in unchecked mode pointer bound violations are not converted into reported
errors, and the flag is fixed for the whole artifact at generation time (it
is stored in the artifact by `generate` and used by every `run`). -/
theorem unchecked_run_no_pointer_errors (p : List OptimizedInstruction)
    (cap fuel : Nat) (s st : TapeState) :
    run (generate p true) cap fuel s ≠ some (.error .PointerUnderflow, st) ∧
    run (generate p true) cap fuel s ≠ some (.error .PointerOverflow, st) := by
  constructor
  · intro h
    have h2 := execF_unchecked_ok cap fuel p s _ st h
    simp at h2
  · intro h
    have h2 := execF_unchecked_ok cap fuel p s _ st h
    simp at h2

/-- C5: in checked mode, a program whose first executed instruction moves
the pointer below 0 fails with `Err(PointerUnderflow)` at that exact
instruction: the result is the underflow error paired with the completely
unchanged state `s` (so no further instruction ran and no output was
produced beyond what `s` already held). -/
theorem checked_underflow_first_instruction (cap fuel : Nat) (d : Int)
    (rest : List OptimizedInstruction) (s : TapeState) (h : s.pointer + d < 0) :
    execF false cap (fuel + 1) (.Move d :: rest) s
      = some (.error .PointerUnderflow, s) := by
  simp only [execF]
  rw [if_neg (by simp), if_pos h]

/-- Witness for C5, through the whole modelled pipeline on the one-command
program `"<"` (byte 60): it parses to `[Op Left]`, coalesces and optimizes
to `[Move (-1)]`, and checked execution from the initial state (pointer 0,
empty output) underflows immediately, leaving the state untouched. -/
theorem checked_underflow_first_instruction_witness :
    parse_program [60] = .ok [.Op .Left] ∧
    optimize (coalesce [.Op .Left]) = [.Move (-1)] ∧
    (initState 30000 []).pointer + (-1) < 0 ∧
    execF false 30000 (0 + 1) (optimize (coalesce [.Op .Left])) (initState 30000 [])
      = some (.error .PointerUnderflow, initState 30000 []) := by
  have hco : optimize (coalesce [.Op .Left]) = [.Move (-1)] := by
    simp [coalesce, optimize, listDelta]
  refine ⟨rfl, hco, by decide, ?_⟩
  rw [hco]
  exact checked_underflow_first_instruction 30000 0 (-1) [] (initState 30000 []) (by decide)

/-- C6: the peephole pass rewrites a `Loop` whose body is exactly one `Add`
with delta congruent to plus or minus 1 mod 256 at offset 0 to `SetZero`,
and the rewrite preserves behavior for every starting cell value `v` in
0..255: the loop and `SetZero` both end in the same state, with the current
cell set to 0 — including `v = 0`, where the loop body never executes. -/
theorem peephole_zero_idiom (d : Int) (rest : List OptimizedInstruction)
    (u : Bool) (cap : Nat) (s : TapeState) (v : Nat)
    (hd : d % 256 = 1 ∨ d % 256 = 255) (hv : v < 256) (hc : cellAt s s.pointer = v) :
    optimize (.Loop [.Add d 0] :: rest) = .SetZero :: optimize rest ∧
    (∃ n, execF u cap n [.Loop [.Add d 0]] s = some (.ok (), setCellAt s s.pointer 0)) ∧
    execF u cap (0 + 1 + 1) [.SetZero] s = some (.ok (), setCellAt s s.pointer 0) := by
  refine ⟨?_, ?_, ?_⟩
  · have hz : isZeroIdiomBody [.Add d 0] = true := by
      rcases hd with h | h <;> simp [isZeroIdiomBody, h]
    simp [optimize, hz]
  · refine execF_zero_loop u cap d hd (v + 256) v s hv hc ?_
    rcases hd with h | h
    · by_cases hv0 : v = 0
      · exact Or.inl hv0
      · exact Or.inr (Or.inr ⟨h, by omega⟩)
    · by_cases hv0 : v = 0
      · exact Or.inl hv0
      · exact Or.inr (Or.inl ⟨h, by omega⟩)
  · rw [execF_setZero, execF_nil]

theorem peephole_zero_idiom_witness :
    ((-1 : Int) % 256 = 1 ∨ (-1 : Int) % 256 = 255) ∧ (0 : Nat) < 256 ∧
    cellAt (initState 4 []) (initState 4 []).pointer = 0 ∧
    (optimize (.Loop [.Add (-1) 0] :: []) = .SetZero :: optimize [] ∧
     (∃ n, execF false 4 n [.Loop [.Add (-1) 0]] (initState 4 [])
        = some (.ok (), setCellAt (initState 4 []) (initState 4 []).pointer 0)) ∧
     execF false 4 (0 + 1 + 1) [.SetZero] (initState 4 [])
        = some (.ok (), setCellAt (initState 4 []) (initState 4 []).pointer 0)) :=
  ⟨Or.inr (by decide), by decide, by decide,
    peephole_zero_idiom (-1) [] false 4 (initState 4 []) 0 (Or.inr (by decide))
      (by decide) (by decide)⟩

lemma optimize_length : ∀ p : List OptimizedInstruction,
    (optimize p).length = p.length := by
  intro p
  induction p with
  | nil => simp [optimize]
  | cons i rest ih =>
    cases i <;> simp [optimize, ih]

lemma isZeroIdiomBody_cons_cons (x y : OptimizedInstruction)
    (t : List OptimizedInstruction) : isZeroIdiomBody (x :: y :: t) = false := by
  cases x <;> rfl

/-- The peephole pass neither creates nor destroys the zeroing-idiom shape of
a loop body. -/
lemma isZeroIdiomBody_optimize : ∀ body : List OptimizedInstruction,
    isZeroIdiomBody (optimize body) = isZeroIdiomBody body := by
  intro body
  match body with
  | [] => simp [optimize]
  | [x] =>
    cases x with
    | Move d => simp [optimize]
    | Add d off => simp [optimize]
    | Input => simp [optimize]
    | Output => simp [optimize]
    | SetZero => simp [optimize]
    | Loop b =>
        simp only [optimize]
        split <;> simp [isZeroIdiomBody]
  | x :: y :: rest =>
    have hlen : (optimize (x :: y :: rest)).length = rest.length + 2 := by
      rw [optimize_length]
      simp
    have h2 : ∃ a b t, optimize (x :: y :: rest) = a :: b :: t := by
      cases h : optimize (x :: y :: rest) with
      | nil => rw [h] at hlen; simp at hlen
      | cons a t =>
        cases t with
        | nil => rw [h] at hlen; simp at hlen
        | cons b t2 => exact ⟨a, b, t2, rfl⟩
    obtain ⟨a, b, t, hab⟩ := h2
    rw [hab, isZeroIdiomBody_cons_cons, isZeroIdiomBody_cons_cons]

/-- C7: the peephole pass is idempotent: applying it twice yields the same
result as applying it once. -/
theorem optimize_idempotent (p : List OptimizedInstruction) :
    optimize (optimize p) = optimize p := by
  have key : ∀ n q, sizeOf (q : List OptimizedInstruction) ≤ n →
      optimize (optimize q) = optimize q := by
    intro n
    induction n with
    | zero =>
      intro q h
      cases q with
      | nil => simp [optimize]
      | cons i rest => simp at h
    | succ n ih =>
      intro q hq
      cases q with
      | nil => simp [optimize]
      | cons i rest =>
        have hrest : sizeOf rest ≤ n := by
          simp only [List.cons.sizeOf_spec] at hq
          have : 1 ≤ sizeOf i := by cases i <;> (simp; all_goals omega)
          omega
        cases i with
        | Loop body =>
          have hbody : sizeOf body ≤ n := by
            simp only [List.cons.sizeOf_spec, OptimizedInstruction.Loop.sizeOf_spec] at hq
            omega
          by_cases hz : isZeroIdiomBody body = true
          · rw [show optimize (.Loop body :: rest) = .SetZero :: optimize rest from by
              simp [optimize, hz]]
            rw [show optimize (.SetZero :: optimize rest) = .SetZero :: optimize (optimize rest)
              from by simp [optimize]]
            rw [ih rest hrest]
          · have hz' : isZeroIdiomBody body = false := by simpa using hz
            rw [show optimize (.Loop body :: rest) = .Loop (optimize body) :: optimize rest
              from by simp [optimize, hz']]
            rw [show optimize (.Loop (optimize body) :: optimize rest)
                = (if isZeroIdiomBody (optimize body) then .SetZero
                   else .Loop (optimize (optimize body))) :: optimize (optimize rest)
              from by simp [optimize]]
            rw [isZeroIdiomBody_optimize body, hz', ih body hbody, ih rest hrest]
            simp
        | Move d =>
          rw [show optimize (.Move d :: rest) = .Move d :: optimize rest from by simp [optimize]]
          rw [show optimize (.Move d :: optimize rest) = .Move d :: optimize (optimize rest)
            from by simp [optimize]]
          rw [ih rest hrest]
        | Add d off =>
          rw [show optimize (.Add d off :: rest) = .Add d off :: optimize rest from by
            simp [optimize]]
          rw [show optimize (.Add d off :: optimize rest)
              = .Add d off :: optimize (optimize rest) from by simp [optimize]]
          rw [ih rest hrest]
        | Input =>
          rw [show optimize (.Input :: rest) = .Input :: optimize rest from by simp [optimize]]
          rw [show optimize (.Input :: optimize rest) = .Input :: optimize (optimize rest)
            from by simp [optimize]]
          rw [ih rest hrest]
        | Output =>
          rw [show optimize (.Output :: rest) = .Output :: optimize rest from by simp [optimize]]
          rw [show optimize (.Output :: optimize rest) = .Output :: optimize (optimize rest)
            from by simp [optimize]]
          rw [ih rest hrest]
        | SetZero =>
          rw [show optimize (.SetZero :: rest) = .SetZero :: optimize rest from by
            simp [optimize]]
          rw [show optimize (.SetZero :: optimize rest)
              = .SetZero :: optimize (optimize rest) from by simp [optimize]]
          rw [ih rest hrest]
  exact key (sizeOf p) p (le_refl _)

/-- C8: the compiled artifact `jit::Program` consists of exactly an
executable code buffer and an entry offset and carries no other state: two
artifacts agreeing on those two fields are equal.  In this pure model no
operation mutates a constructed value, so every invocation observes the same
code. -/
theorem jit_program_no_hidden_state (a b : JitProgram)
    (hcode : a.code = b.code) (hstart : a.start = b.start) : a = b := by
  cases a
  cases b
  simp_all

theorem jit_program_no_hidden_state_witness :
    JitProgram.mk [] 0 = JitProgram.mk [] 0 :=
  jit_program_no_hidden_state (JitProgram.mk [] 0) (JitProgram.mk [] 0) rfl rfl
